import Mathlib

/-
Verification of `update-repos.py`, a bulk string-update tool: it selects
repositories of a GitHub organization, syncs a local clone of each,
replaces every occurrence of a target string by a replacement string in
the matching files, commits the change on a topic branch, and optionally
pushes the branch and opens a pull request.

The development has three layers:

1. a generic theory of greedy leftmost string replacement
   (`repl`, `countOccur`), the semantics of Python's `str.replace` and
   `str.count` which the script uses line by line (`update_file`);
2. a shallow embedding of the script's control flow
   (`validate`, `get_repo_names`, `update_repo`, `create_pr`, `runRepoNames`,
   `main`): every external call (git, GitHub API, the `ag` search tool,
   `time.sleep`) is recorded as an `Action` in a trace, the data the
   external world would return is provided by a `RepoEnv` record per
   repository, and an uncaught Python exception is an `Except.error`
   value that propagates exactly where the script has no `try`/`except`;
3. theorems settling the specified behaviour against that embedding.
-/

namespace UpdateRepos

/-! Definitions: string replacement, file mutation, and the program model. -/

section ModelDefs

variable {α : Type} [DecidableEq α]

/-- Fuel-driven worker for `repl`; the fuel only serves termination,
`repl` below always supplies enough of it. -/
def replF (t r : List α) : Nat → List α → List α
  | _, [] => []
  | 0, s => s
  | Nat.succ fuel, c :: cs =>
    if t ≠ [] ∧ t <+: (c :: cs)
    then r ++ replF t r fuel ((c :: cs).drop t.length)
    else c :: replF t r fuel cs

/-- Greedy leftmost replacement of every occurrence of `t` in `s` by `r`:
the semantics of Python's `str.replace` for a non-empty pattern `t`
(for `t = []` it returns `s` unchanged). -/
def repl (t r s : List α) : List α := replF t r s.length s

/-- Fuel-driven worker for `countOccur`. -/
def countF (t : List α) : Nat → List α → Nat
  | _, [] => 0
  | 0, _ => 0
  | Nat.succ fuel, c :: cs =>
    if t ≠ [] ∧ t <+: (c :: cs)
    then 1 + countF t fuel ((c :: cs).drop t.length)
    else countF t fuel cs

/-- Number of non-overlapping occurrences of `t` in `s`, counted greedily
from the left: the semantics of Python's `str.count` for a non-empty
pattern `t` (for `t = []` it returns `0`). -/
def countOccur (t s : List α) : Nat := countF t s.length s

/-!
The source's `update_file` (lines 49-55) reads a file line by line and prints
`line.replace(target, replacement)` for every line, rewriting the file in
place.  A file is modelled as its list of lines (each a `List Char`); the
target and replacement strings are `List Char` values that do not span a
line boundary, so the per-line `str.replace` is `repl` and the whole file
update is a map over the lines.
-/

/-- The mutation `update_file` performs on a file's contents
(source lines 49-55): every line is run through `str.replace`. -/
def update_file (t r : List Char) (lines : List (List Char)) : List (List Char) :=
  lines.map (repl t r)

/-- Total number of (greedily counted, non-overlapping) occurrences of a
newline-free string `t` in a file given as its list of lines. -/
def countFile (t : List Char) (lines : List (List Char)) : Nat :=
  (lines.map (countOccur t)).sum

/-- One repository as the external world presents it to the script: the
GitHub API data (`defaultBranch`, `sshUrl`, `archived`, `topics`), the
state of the local workspace, the workspace's file contents after the
sync/clone step, and the outcomes of the external git/GitHub calls the
script makes for this repository.  `syncFails` abstracts a
`GitCommandError` raised by any of the checkout / hard-reset / pull calls
(source lines 67-69), `cloneFails` one raised by `clone_from` (line 73),
`commitExtraFails` a `GitCommandError` raised by the commit call for a
reason other than `git`'s "nothing to commit" (which the model raises by
itself whenever the mutation changed no file), `pushFails` and
`createPullFails` failures of the push and of the pull-request creation
call. -/
structure RepoEnv where
  name : String
  defaultBranch : String
  sshUrl : String
  archived : Bool
  topics : List String
  workspaceExists : Bool
  syncFails : Bool
  cloneFails : Bool
  files : List (String × List (List Char))
  commitExtraFails : Bool
  pushFails : Bool
  createPullFails : Bool
  prUrl : String
deriving DecidableEq

/-- The script's configuration (its command-line arguments).  Python's
optional string arguments default to `None`; `None` and `""` are both
falsy there, so an absent `repo_regex` / `repo_topic` / `target_file` is
modelled as `""`.  `workDir` stands for the resolved working directory
(the given `--work-dir` or the temporary directory `main` creates). -/
structure Config where
  orgName : String
  repoList : List String
  repoRegex : String
  repoTopic : String
  ignoreRepos : List String
  branchName : String
  commitMessage : String
  targetFile : String
  target : List Char
  replacement : List Char
  workDir : String
  pr : Bool
deriving DecidableEq

/-- One externally visible side effect of the script, in program order. -/
inductive Action where
  | getRepo (fullName : String)
  | checkout (branch : String)
  | resetHard (branch : String)
  | pull (branch : String)
  | clone (url : String) (path : String)
  | search (target : List Char)
  | updateFileAt (path : String)
  | createHead (branch : String)
  | checkoutBranch (branch : String)
  | commit (message : String)
  | printNoMatches (repoName : String)
  | push
  | sleep (seconds : Nat)
  | createPull (title : String) (body : String) (head : String) (base : String)
deriving DecidableEq

/-- An uncaught Python exception escaping `update_repo` / `create_pr`. -/
inductive Err where
  | syncError
  | cloneError
  | pushError
  | createPullError
  | unknownRepo
deriving DecidableEq

/-- A `ValueError` raised by the configuration checks at the top of
`main` (source lines 124-131). -/
inductive ConfigError where
  | noSelection
  | conflictingSelection
  | protectedBranch (name : String)
deriving DecidableEq

/-- Python's `sub in s` substring test, used for `repo_regex in repo.name`
(source line 36). -/
def strContains (hay needle : String) : Prop :=
  needle.toList <:+: hay.toList

instance (hay needle : String) : Decidable (strContains hay needle) :=
  inferInstanceAs (Decidable (needle.toList <:+: hay.toList))

/-- The rule-based selection loop of `get_repo_names`
(source lines 33-39): enumerate the organization's repositories in
discovery order; skip ignored names; append the name when the substring
rule matches, and append it (again) when the topic rule matches. -/
def selectRepos (repoRegex repoTopic : String) (ignoreRepos : List String) :
    List RepoEnv → List String
  | [] => []
  | repo :: rest =>
    if repo.name ∈ ignoreRepos then selectRepos repoRegex repoTopic ignoreRepos rest
    else
      (if repoRegex ≠ "" ∧ strContains repo.name repoRegex then [repo.name] else []) ++
      (if repoTopic ≠ "" ∧ repoTopic ∈ repo.topics then [repo.name] else []) ++
      selectRepos repoRegex repoTopic ignoreRepos rest

/-- Model of `get_repo_names` (source lines 23-41): an explicit repository list is
returned as is, skipping the organization enumeration entirely; otherwise
the rule-based selection loop runs over the organization's repositories
(`allRepos`). -/
def get_repo_names (repoList : List String) (repoRegex repoTopic : String)
    (ignoreRepos : List String) (allRepos : List RepoEnv) : List String :=
  if repoList ≠ [] then repoList
  else selectRepos repoRegex repoTopic ignoreRepos allRepos

/-- Model of `get_file_paths` (source lines 43-47): `ag -l target` lists the paths
of the workspace files that contain the target string. -/
def get_file_paths (files : List (String × List (List Char))) (t : List Char) :
    List String :=
  (files.filter fun f => f.2.any fun line => decide (t <:+: line)).map Prod.fst

/-- Model of `create_pr` (source lines 105-117): push the topic branch, sleep one
second to stay under the API rate limit, then open a pull request with
the commit message as title, an empty body, the topic branch as head and
the repository's default branch (`base_branch` in `update_repo`, line 62)
as base, returning the new pull request's URL in a singleton list. -/
def create_pr (cfg : Config) (env : RepoEnv) :
    List Action × Except Err (Option (List String)) :=
  if env.pushFails then ([Action.push], Except.error Err.pushError)
  else if env.createPullFails then
    ([Action.push, Action.sleep 1,
      Action.createPull cfg.commitMessage "" cfg.branchName env.defaultBranch],
     Except.error Err.createPullError)
  else
    ([Action.push, Action.sleep 1,
      Action.createPull cfg.commitMessage "" cfg.branchName env.defaultBranch],
     Except.ok (some [env.prUrl]))

/-- The workspace contents after the mutation loop of `update_repo`
(source lines 84-88): each file whose path is in `filePaths` is rewritten
by `update_file`; a path in `filePaths` with no corresponding file only
produces the `FileNotFoundError` warning of `update_file` (lines 54-55)
and changes nothing. -/
def mutatedFiles (cfg : Config) (env : RepoEnv) (filePaths : List String) :
    List (String × List (List Char)) :=
  env.files.map fun f =>
    if f.1 ∈ filePaths then (f.1, update_file cfg.target cfg.replacement f.2) else f

/-- Model of `update_repo` from the branch/commit step on (source lines 84-103):
mutate the matched files, create and check out the topic branch, commit
with `-a`; git raises `GitCommandError` when the mutation changed nothing
("nothing to commit") and may raise one for other reasons
(`commitExtraFails`); the script catches it, prints the no-matches
message and returns `None` (lines 93-97).  Otherwise, publish when `--pr`
was given, else return the changed `repo/path` strings. -/
def update_repo_withPaths (cfg : Config) (env : RepoEnv) (trace : List Action)
    (filePaths : List String) : List Action × Except Err (Option (List String)) :=
  let trace2 := trace ++ filePaths.map Action.updateFileAt
      ++ [Action.createHead cfg.branchName, Action.checkoutBranch cfg.branchName]
  if mutatedFiles cfg env filePaths = env.files ∨ env.commitExtraFails then
    (trace2 ++ [Action.commit cfg.commitMessage, Action.printNoMatches env.name],
     Except.ok none)
  else if cfg.pr then
    let pr := create_pr cfg env
    (trace2 ++ [Action.commit cfg.commitMessage] ++ pr.1, pr.2)
  else
    (trace2 ++ [Action.commit cfg.commitMessage],
     Except.ok (some (filePaths.map fun p => env.name ++ "/" ++ p)))

/-- Model of `update_repo` from the change-discovery step on (source lines 75-82):
an explicit `--target-file` is used unconditionally; otherwise the `ag`
search runs, and an empty result prints the no-matches message and
returns `None` before any branch or commit. -/
def update_repo_afterSync (cfg : Config) (env : RepoEnv) (trace : List Action) :
    List Action × Except Err (Option (List String)) :=
  if cfg.targetFile ≠ "" then
    update_repo_withPaths cfg env trace [cfg.targetFile]
  else
    let filePaths := get_file_paths env.files cfg.target
    if filePaths = [] then
      (trace ++ [Action.search cfg.target, Action.printNoMatches env.name],
       Except.ok none)
    else
      update_repo_withPaths cfg env (trace ++ [Action.search cfg.target]) filePaths

/-- Model of `update_repo` (source lines 57-103).  It fetches the repository
object (GitHub API), reads its default branch, then syncs the workspace:
if a local copy exists it is checked out, hard-reset and pulled (any
`GitCommandError` there is uncaught and propagates, `syncFails`); if not,
`git.Repo` raises `NoSuchPathError`, which is caught, and the repository
is cloned (an uncaught clone failure is `cloneFails`).  The `archived`
flag of the repository object is never consulted. -/
def update_repo (cfg : Config) (env : RepoEnv) :
    List Action × Except Err (Option (List String)) :=
  let trace0 := [Action.getRepo (cfg.orgName ++ "/" ++ env.name)]
  if env.workspaceExists then
    if env.syncFails then
      (trace0 ++ [Action.checkout env.defaultBranch], Except.error Err.syncError)
    else
      update_repo_afterSync cfg env
        (trace0 ++ [Action.checkout env.defaultBranch,
          Action.resetHard env.defaultBranch, Action.pull env.defaultBranch])
  else
    if env.cloneFails then
      (trace0 ++ [Action.clone env.sshUrl (cfg.workDir ++ "/" ++ env.name)],
       Except.error Err.cloneError)
    else
      update_repo_afterSync cfg env
        (trace0 ++ [Action.clone env.sshUrl (cfg.workDir ++ "/" ++ env.name)])

/-- The per-repository loop of `main` (source lines 142-148).  Each name
is processed with `update_repo` (looking the repository up in the world;
an unknown name would make the GitHub API call raise).  The loop has no
`try`/`except`: an exception escaping `update_repo` propagates and ends
the whole loop, so the trace stops with the failing repository and the
result is that error.  Successful `update_repo` results extend the
accumulated `results` list exactly when they are not `None`. -/
def runRepoNames (cfg : Config) (world : List RepoEnv) :
    List String → List Action × Except Err (List String)
  | [] => ([], Except.ok [])
  | n :: rest =>
    match world.find? (fun e => e.name == n) with
    | none => ([Action.getRepo (cfg.orgName ++ "/" ++ n)], Except.error Err.unknownRepo)
    | some env =>
      match update_repo cfg env with
      | (tr, Except.error e) => (tr, Except.error e)
      | (tr, Except.ok r) =>
        match runRepoNames cfg world rest with
        | (tr2, Except.error e) => (tr ++ tr2, Except.error e)
        | (tr2, Except.ok results) => (tr ++ tr2, Except.ok (r.getD [] ++ results))

/-- The configuration checks at the top of `main` (source lines 124-131),
in source order: no selection mode at all is a `ValueError`; an explicit
list combined with a regex or topic rule is a `ValueError`; a topic
branch named `master` or `main` is a `ValueError`. -/
def validate (cfg : Config) : Except ConfigError Unit :=
  if cfg.repoRegex = "" ∧ cfg.repoTopic = "" ∧ cfg.repoList = [] then
    Except.error ConfigError.noSelection
  else if cfg.repoList ≠ [] ∧ (cfg.repoRegex ≠ "" ∨ cfg.repoTopic ≠ "") then
    Except.error ConfigError.conflictingSelection
  else if cfg.branchName = "master" ∨ cfg.branchName = "main" then
    Except.error (ConfigError.protectedBranch cfg.branchName)
  else Except.ok ()

instance {ε σ : Type} [DecidableEq ε] [DecidableEq σ] : DecidableEq (Except ε σ) :=
  fun x y =>
    match x, y with
    | Except.error a, Except.error b =>
      if h : a = b then isTrue (by rw [h])
      else isFalse (by intro e; injection e; exact h (by assumption))
    | Except.error _, Except.ok _ => isFalse (by intro e; exact Except.noConfusion e)
    | Except.ok _, Except.error _ => isFalse (by intro e; exact Except.noConfusion e)
    | Except.ok a, Except.ok b =>
      if h : a = b then isTrue (by rw [h])
      else isFalse (by intro e; injection e; exact h (by assumption))

/-- Result of a whole run of `main`: either a configuration `ValueError`
raised before any network or filesystem action, or the executed action
trace together with the collected results (`Except.error` when an
uncaught per-repository exception ended the run early). -/
inductive MainOutcome where
  | configError (e : ConfigError)
  | run (trace : List Action) (result : Except Err (List String))
deriving DecidableEq

/-- Model of `main` (source lines 119-162): validate the configuration (raising
before anything else happens), resolve the repository names, then run the
per-repository loop. -/
def main (cfg : Config) (world : List RepoEnv) : MainOutcome :=
  match validate cfg with
  | Except.error e => MainOutcome.configError e
  | Except.ok _ =>
    let names := get_repo_names cfg.repoList cfg.repoRegex cfg.repoTopic
      cfg.ignoreRepos world
    match runRepoNames cfg world names with
    | (tr, res) => MainOutcome.run tr res

/-!
Concrete worlds used by the counterexamples and witnesses below.  They
use one-letter strings for the irrelevant fields; only the fields the
respective claim is about carry structure.
-/

/-- Configuration with an explicit two-repository list, used for the
orchestrator-boundary claims. -/
def cfgC1 : Config :=
  { orgName := "o", repoList := ["a", "b"], repoRegex := "", repoTopic := "",
    ignoreRepos := [], branchName := "t", commitMessage := "m", targetFile := "",
    target := ['x'], replacement := ['y'], workDir := "w", pr := false }

/-- Repository `a`: no local workspace, and the clone call fails. -/
def envC1a : RepoEnv :=
  { name := "a", defaultBranch := "d", sshUrl := "u", archived := false,
    topics := [], workspaceExists := false, syncFails := false, cloneFails := true,
    files := [], commitExtraFails := false, pushFails := false,
    createPullFails := false, prUrl := "p" }

/-- Repository `b`: healthy, and its file `f` contains the target. -/
def envC1b : RepoEnv :=
  { envC1a with name := "b", cloneFails := false, files := [("f", [['x']])] }

/-- Configuration selecting the single repository `a` with publishing on. -/
def cfgC2 : Config :=
  { cfgC1 with repoList := ["a"], pr := true }

/-- An archived repository whose external calls all succeed. -/
def envC2 : RepoEnv :=
  { envC1a with
    archived := true
    cloneFails := false
    files := [("f", [['x']])]
    prUrl := "purl" }

/-- Configuration whose topic branch name equals the repository's default
branch (`develop`), but is neither `master` nor `main`. -/
def cfgC3 : Config :=
  { cfgC1 with repoList := ["a"], branchName := "develop" }

/-- Repository whose default branch is `develop`; its sync step fails so
the run after validation stays short. -/
def envC3 : RepoEnv :=
  { envC1a with
    defaultBranch := "develop"
    workspaceExists := true
    syncFails := true }

/-- The same configuration with the protected topic branch name. -/
def cfgC3m : Config :=
  { cfgC3 with branchName := "master" }

/-- A repository matching a substring rule with its name and a topic rule
with its topic list at the same time. -/
def envC4 : RepoEnv :=
  { envC1a with name := "svc-tool", topics := ["tool"] }

/-- Two repositories for the duplicate-free selection witness: `alpha`
matches only the substring rule, `beta` only the topic rule. -/
def envC4a : RepoEnv :=
  { envC1a with name := "alpha", topics := [] }

/-- See `envC4a`. -/
def envC4b : RepoEnv :=
  { envC1a with name := "beta", topics := ["tool"] }

/-- A configuration supplying both an explicit list and a substring rule. -/
def cfgC6 : Config :=
  { cfgC1 with repoList := ["a"], repoRegex := "svc" }

/-- Publish-enabled configuration for the pull-request claim. -/
def cfgC7 : Config :=
  { cfgC1 with repoList := ["a"], pr := true }

/-- A healthy repository with an existing workspace and one match. -/
def envC7 : RepoEnv :=
  { envC1a with
    workspaceExists := true
    cloneFails := false
    files := [("f", [['x']])]
    prUrl := "purl" }

/-- Configuration whose target and replacement strings are equal. -/
def cfgC8 : Config :=
  { cfgC1 with repoList := ["a"], replacement := ['x'] }

/-- A healthy repository with a match, used with `cfgC8`. -/
def envC8 : RepoEnv :=
  { envC1a with cloneFails := false, files := [("f", [['x']])] }

/-- A repository whose commit call raises a `GitCommandError` even though
the mutation changed the working tree. -/
def envC10 : RepoEnv :=
  { envC1a with
    workspaceExists := true
    cloneFails := false
    files := [("f", [['x']])]
    commitExtraFails := true }

/-- Configuration selecting the single repository `a`, used with
`envC10`. -/
def cfgC10 : Config :=
  { cfgC1 with repoList := ["a"] }

end ModelDefs

/-! General lemmas about lists, replacement and counting. -/

section TheoryLemmas

variable {α : Type}

theorem exists_cons_of_ne_nil {l : List α} (h : l ≠ []) :
    ∃ c cs, l = c :: cs := by
  cases l with
  | nil => exact absurd rfl h
  | cons c cs => exact ⟨c, cs, rfl⟩

/-- An occurrence inside a concatenation lies in the left part, in the
right part, or spans the boundary as a nonempty suffix of the left part
followed by a nonempty part of the right part. -/
theorem infix_append_split {a b t : List α} (h : t <:+: a ++ b) :
    t <:+: a ∨ t <:+: b ∨
      ∃ a2 b1, a2 ≠ [] ∧ b1 ≠ [] ∧ a2 <:+ a ∧ b1 <+: b ∧ t = a2 ++ b1 := by
  obtain ⟨u, v, huv⟩ := h
  rcases le_or_lt a.length u.length with hau | hua
  · -- t lies inside b
    right; left
    have hdrop : t ++ v = (a ++ b).drop u.length := by
      rw [← huv, List.append_assoc, List.drop_left]
    have hsplit : (a ++ b).drop u.length = b.drop (u.length - a.length) := by
      have h2 : u.length = a.length + (u.length - a.length) := by omega
      rw [h2, List.drop_append]
      congr 1
      omega
    rw [hsplit] at hdrop
    have hpre : t <+: b.drop (u.length - a.length) := ⟨v, hdrop⟩
    exact List.IsInfix.trans (List.IsPrefix.isInfix hpre)
      (List.IsSuffix.isInfix (List.drop_suffix _ _))
  · -- t starts inside a
    have hdrop : t ++ v = a.drop u.length ++ b := by
      have h1 : t ++ v = (a ++ b).drop u.length := by
        rw [← huv, List.append_assoc, List.drop_left]
      rw [h1, List.drop_append_of_le_length (Nat.le_of_lt hua)]
    have ha1ne : a.drop u.length ≠ [] := by
      intro e
      have := congrArg List.length e
      simp only [List.length_drop, List.length_nil] at this
      omega
    rcases le_or_lt t.length (a.drop u.length).length with htle | htgt
    · -- t lies entirely inside a
      left
      have ht : t = (a.drop u.length).take t.length := by
        have h2 : (t ++ v).take t.length = t := List.take_left t v
        rw [hdrop, List.take_append_of_le_length htle] at h2
        exact h2.symm
      rw [ht]
      exact List.IsInfix.trans (List.IsPrefix.isInfix ( List.take_prefix _ _))
        (List.IsSuffix.isInfix (List.drop_suffix _ _))
    · -- t spans the boundary
      right; right
      have htake : t.take (a.drop u.length).length = a.drop u.length := by
        have h2 : (t ++ v).take (a.drop u.length).length
            = t.take (a.drop u.length).length :=
          List.take_append_of_le_length (Nat.le_of_lt htgt)
        rw [hdrop, List.take_left] at h2
        exact h2.symm
      have hb1 : t.drop (a.drop u.length).length ++ v = b := by
        have h3 : t.take (a.drop u.length).length ++ t.drop (a.drop u.length).length ++ v
            = a.drop u.length ++ b := by
          rw [List.take_append_drop]; exact hdrop
        rw [htake, List.append_assoc] at h3
        exact List.append_cancel_left h3
      refine ⟨a.drop u.length, t.drop (a.drop u.length).length, ha1ne, ?_,
        List.drop_suffix _ _, ⟨v, hb1⟩, ?_⟩
      · apply List.ne_nil_of_length_pos
        simp only [List.length_drop] at htgt ⊢
        omega
      · conv_lhs => rw [← List.take_append_drop (a.drop u.length).length t]
        rw [htake]

variable {α : Type} [DecidableEq α]

theorem replF_congr (t r : List α) :
    ∀ (f₁ f₂ : Nat) (s : List α), s.length ≤ f₁ → s.length ≤ f₂ →
      replF t r f₁ s = replF t r f₂ s := by
  intro f₁
  induction f₁ with
  | zero =>
    intro f₂ s hs₁ _
    have : s = [] := List.eq_nil_of_length_eq_zero (Nat.le_zero.mp hs₁)
    subst this
    cases f₂ <;> rfl
  | succ f ih =>
    intro f₂ s hs₁ hs₂
    match s with
    | [] => cases f₂ <;> rfl
    | c :: cs =>
      match f₂ with
      | 0 => exact absurd hs₂ (by simp)
      | Nat.succ f' =>
        simp only [replF]
        by_cases h : t ≠ [] ∧ t <+: (c :: cs)
        · rw [if_pos h, if_pos h]
          have ht : 0 < t.length := List.length_pos.mpr h.1
          have hd : ((c :: cs).drop t.length).length ≤ f := by
            simp only [List.length_drop, List.length_cons]
            simp only [List.length_cons] at hs₁
            omega
          have hd' : ((c :: cs).drop t.length).length ≤ f' := by
            simp only [List.length_drop, List.length_cons]
            simp only [List.length_cons] at hs₂
            omega
          rw [ih f' _ hd hd']
        · rw [if_neg h, if_neg h]
          have hc : cs.length ≤ f := by
            simp only [List.length_cons] at hs₁; omega
          have hc' : cs.length ≤ f' := by
            simp only [List.length_cons] at hs₂; omega
          rw [ih f' _ hc hc']

theorem countF_congr (t : List α) :
    ∀ (f₁ f₂ : Nat) (s : List α), s.length ≤ f₁ → s.length ≤ f₂ →
      countF t f₁ s = countF t f₂ s := by
  intro f₁
  induction f₁ with
  | zero =>
    intro f₂ s hs₁ _
    have : s = [] := List.eq_nil_of_length_eq_zero (Nat.le_zero.mp hs₁)
    subst this
    cases f₂ <;> rfl
  | succ f ih =>
    intro f₂ s hs₁ hs₂
    match s with
    | [] => cases f₂ <;> rfl
    | c :: cs =>
      match f₂ with
      | 0 => exact absurd hs₂ (by simp)
      | Nat.succ f' =>
        simp only [countF]
        by_cases h : t ≠ [] ∧ t <+: (c :: cs)
        · rw [if_pos h, if_pos h]
          have ht : 0 < t.length := List.length_pos.mpr h.1
          have hd : ((c :: cs).drop t.length).length ≤ f := by
            simp only [List.length_drop, List.length_cons]
            simp only [List.length_cons] at hs₁
            omega
          have hd' : ((c :: cs).drop t.length).length ≤ f' := by
            simp only [List.length_drop, List.length_cons]
            simp only [List.length_cons] at hs₂
            omega
          rw [ih f' _ hd hd']
        · rw [if_neg h, if_neg h]
          have hc : cs.length ≤ f := by
            simp only [List.length_cons] at hs₁; omega
          have hc' : cs.length ≤ f' := by
            simp only [List.length_cons] at hs₂; omega
          rw [ih f' _ hc hc']

@[simp] theorem repl_nil (t r : List α) : repl t r [] = [] := rfl

theorem repl_cons_pos {t : List α} (r : List α) {c : α} {cs : List α}
    (ht : t ≠ []) (hp : t <+: (c :: cs)) :
    repl t r (c :: cs) = r ++ repl t r ((c :: cs).drop t.length) := by
  have h0 : 0 < t.length := List.length_pos.mpr ht
  show replF t r (c :: cs).length (c :: cs) = _
  rw [show (c :: cs).length = cs.length + 1 from rfl]
  rw [replF, if_pos ⟨ht, hp⟩]
  congr 1
  exact replF_congr t r cs.length ((c :: cs).drop t.length).length _
    (by simp only [List.length_drop, List.length_cons]; omega) le_rfl

theorem repl_cons_neg {t : List α} (r : List α) {c : α} {cs : List α}
    (h : ¬(t ≠ [] ∧ t <+: (c :: cs))) :
    repl t r (c :: cs) = c :: repl t r cs := by
  show replF t r (c :: cs).length (c :: cs) = _
  rw [show (c :: cs).length = cs.length + 1 from rfl]
  rw [replF, if_neg h]
  rfl

@[simp] theorem countOccur_nil (t : List α) : countOccur t [] = 0 := rfl

theorem countOccur_cons_pos {t : List α} {c : α} {cs : List α}
    (ht : t ≠ []) (hp : t <+: (c :: cs)) :
    countOccur t (c :: cs) = 1 + countOccur t ((c :: cs).drop t.length) := by
  have h0 : 0 < t.length := List.length_pos.mpr ht
  show countF t (c :: cs).length (c :: cs) = _
  rw [show (c :: cs).length = cs.length + 1 from rfl]
  rw [countF, if_pos ⟨ht, hp⟩]
  congr 1
  exact countF_congr t cs.length ((c :: cs).drop t.length).length _
    (by simp only [List.length_drop, List.length_cons]; omega) le_rfl

theorem countOccur_cons_neg {t : List α} {c : α} {cs : List α}
    (h : ¬(t ≠ [] ∧ t <+: (c :: cs))) :
    countOccur t (c :: cs) = countOccur t cs := by
  show countF t (c :: cs).length (c :: cs) = _
  rw [show (c :: cs).length = cs.length + 1 from rfl]
  rw [countF, if_neg h]
  exact countF_congr t cs.length cs.length cs (by simp) le_rfl

theorem repl_self_aux (t : List α) :
    ∀ (n : Nat) (s : List α), s.length ≤ n → repl t t s = s := by
  intro n
  induction n with
  | zero =>
    intro s hs
    have : s = [] := List.eq_nil_of_length_eq_zero (Nat.le_zero.mp hs)
    subst this; rfl
  | succ n ih =>
    intro s hs
    match s with
    | [] => rfl
    | c :: cs =>
      by_cases h : t ≠ [] ∧ t <+: (c :: cs)
      · rw [repl_cons_pos t h.1 h.2]
        obtain ⟨u, hu⟩ := h.2
        have hlen : ((c :: cs).drop t.length).length ≤ n := by
          have : 0 < t.length := List.length_pos.mpr h.1
          simp only [List.length_drop, List.length_cons]
          simp only [List.length_cons] at hs
          omega
        rw [ih _ hlen, ← hu, List.drop_left]
      · rw [repl_cons_neg t h,
            ih cs (by simp only [List.length_cons] at hs; omega)]

/-- Substituting a string by itself changes nothing. -/
theorem repl_self (t : List α) (s : List α) : repl t t s = s :=
  repl_self_aux t s.length s le_rfl

theorem countOccur_eq_zero_of_no_occurrence (t : List α) :
    ∀ s : List α, ¬ t <:+: s → countOccur t s = 0 := by
  intro s
  induction s with
  | nil => intro _; rfl
  | cons c cs ih =>
    intro h
    have hnp : ¬(t ≠ [] ∧ t <+: (c :: cs)) := by
      rintro ⟨-, hp⟩; exact h hp.isInfix
    rw [countOccur_cons_neg hnp]
    exact ih fun hx => h (List.infix_cons hx)

theorem repl_eq_of_no_occurrence (t r : List α) :
    ∀ s : List α, ¬ t <:+: s → repl t r s = s := by
  intro s
  induction s with
  | nil => intro _; rfl
  | cons c cs ih =>
    intro h
    have hnp : ¬(t ≠ [] ∧ t <+: (c :: cs)) := by
      rintro ⟨-, hp⟩; exact h hp.isInfix
    rw [repl_cons_neg r hnp, ih fun hx => h (List.infix_cons hx)]


theorem countOccur_append_self {r : List α} (hr : r ≠ []) (x : List α) :
    countOccur r (r ++ x) = 1 + countOccur r x := by
  obtain ⟨rc, r', rfl⟩ := exists_cons_of_ne_nil hr
  rw [List.cons_append, countOccur_cons_pos (List.cons_ne_nil rc r')
    (by rw [← List.cons_append]; exact List.prefix_append _ _)]
  congr 1
  rw [← List.cons_append, List.drop_left]


/-- If `t'` is not a prefix of `cs` and shares no element with `r`, then
`t'` is not a prefix of the replacement result for `cs` either. -/
theorem not_prefix_repl (t r : List α) (hr : r ≠ []) :
    ∀ (n : Nat) (cs t' : List α), cs.length ≤ n → ¬ t' <+: cs →
      (∀ c ∈ t', c ∉ r) → ¬ t' <+: repl t r cs := by
  intro n
  induction n with
  | zero =>
    intro cs t' hlen hnp _
    have : cs = [] := List.eq_nil_of_length_eq_zero (Nat.le_zero.mp hlen)
    subst this
    simpa using hnp
  | succ n ih =>
    intro cs t' hlen hnp hdisj
    match cs with
    | [] => simpa using hnp
    | d :: ds =>
      have ht'ne : t' ≠ [] := by
        intro e; subst e; exact hnp List.nil_prefix
      obtain ⟨tc, t'', rfl⟩ := exists_cons_of_ne_nil ht'ne
      by_cases h : t ≠ [] ∧ t <+: (d :: ds)
      · rw [repl_cons_pos r h.1 h.2]
        obtain ⟨rc, r', rfl⟩ := exists_cons_of_ne_nil hr
        rw [List.cons_append, List.cons_prefix_cons]
        rintro ⟨rfl, -⟩
        exact hdisj tc (List.mem_cons_self _ _) (List.mem_cons_self _ _)
      · rw [repl_cons_neg r h, List.cons_prefix_cons]
        rintro ⟨rfl, hp2⟩
        have hnp2 : ¬ t'' <+: ds := by
          intro hx
          exact hnp (List.cons_prefix_cons.mpr ⟨rfl, hx⟩)
        exact ih ds t'' (by simp only [List.length_cons] at hlen; omega) hnp2
          (fun c hc => hdisj c (List.mem_cons_of_mem _ hc)) hp2

/-- After replacing every occurrence of `t` by `r`, no occurrence of `t`
remains, provided `t` and `r` share no element. -/
theorem not_infix_repl (t r : List α) (ht : t ≠ []) (hr : r ≠ [])
    (hdisj : ∀ c ∈ t, c ∉ r) :
    ∀ (n : Nat) (s : List α), s.length ≤ n → ¬ t <:+: repl t r s := by
  intro n
  induction n with
  | zero =>
    intro s hlen
    have : s = [] := List.eq_nil_of_length_eq_zero (Nat.le_zero.mp hlen)
    subst this
    simpa using ht
  | succ n ih =>
    intro s hlen
    match s with
    | [] => simpa using ht
    | c :: cs =>
      by_cases h : t ≠ [] ∧ t <+: (c :: cs)
      · rw [repl_cons_pos r h.1 h.2]
        intro hinf
        rcases infix_append_split hinf with hl | hm | ⟨a2, b1, ha2ne, hb1ne, ha2, hb1, heq⟩
        · obtain ⟨tc, t₂, rfl⟩ := exists_cons_of_ne_nil ht
          exact hdisj tc (List.mem_cons_self _ _) (hl.subset (List.mem_cons_self _ _))
        · have hd : ((c :: cs).drop t.length).length ≤ n := by
            have : 0 < t.length := List.length_pos.mpr h.1
            simp only [List.length_drop, List.length_cons]
            simp only [List.length_cons] at hlen
            omega
          exact ih _ hd hm
        · obtain ⟨ac, a2', rfl⟩ := exists_cons_of_ne_nil ha2ne
          have hac_t : ac ∈ t := by
            rw [heq]; exact List.mem_append_left _ (List.mem_cons_self _ _)
          exact hdisj ac hac_t (ha2.subset (List.mem_cons_self _ _))
      · rw [repl_cons_neg r h]
        intro hinf
        rcases List.infix_cons_iff.mp hinf with hpre | hm
        · obtain ⟨tc, t₂, rfl⟩ := exists_cons_of_ne_nil ht
          rw [List.cons_prefix_cons] at hpre
          obtain ⟨rfl, hp2⟩ := hpre
          have hnp : ¬ t₂ <+: cs := by
            intro hx
            exact h ⟨ht, List.cons_prefix_cons.mpr ⟨rfl, hx⟩⟩
          exact not_prefix_repl (tc :: t₂) r hr cs.length cs t₂ le_rfl hnp
            (fun x hx => hdisj x (List.mem_cons_of_mem _ hx)) hp2
        · exact ih cs (by simp only [List.length_cons] at hlen; omega) hm

/-- After replacement, the pattern `t` no longer occurs, provided no
element of `r` occurs in `s`. -/
theorem countOccur_repl_target (t r s : List α) (ht : t ≠ []) (hr : r ≠ [])
    (hs : ∀ c ∈ r, c ∉ s) : countOccur t (repl t r s) = 0 := by
  by_cases hinf : t <:+: s
  · have hdisj : ∀ c ∈ t, c ∉ r := fun c hc hcr => hs c hcr (hinf.subset hc)
    exact countOccur_eq_zero_of_no_occurrence t _
      (not_infix_repl t r ht hr hdisj s.length s le_rfl)
  · rw [repl_eq_of_no_occurrence t r s hinf]
    exact countOccur_eq_zero_of_no_occurrence t s hinf

/-- After replacement, `r` occurs exactly as often as `t` occurred,
provided no element of `r` occurs in `s`. -/
theorem countOccur_repl_replacement_aux (t r : List α) (ht : t ≠ []) (hr : r ≠ []) :
    ∀ (n : Nat) (s : List α), s.length ≤ n → (∀ c ∈ r, c ∉ s) →
      countOccur r (repl t r s) = countOccur t s := by
  intro n
  induction n with
  | zero =>
    intro s hlen _
    have : s = [] := List.eq_nil_of_length_eq_zero (Nat.le_zero.mp hlen)
    subst this; rfl
  | succ n ih =>
    intro s hlen hs
    match s with
    | [] => rfl
    | c :: cs =>
      by_cases h : t ≠ [] ∧ t <+: (c :: cs)
      · rw [repl_cons_pos r h.1 h.2, countOccur_append_self hr,
          countOccur_cons_pos h.1 h.2]
        congr 1
        have hd : ((c :: cs).drop t.length).length ≤ n := by
          have : 0 < t.length := List.length_pos.mpr h.1
          simp only [List.length_drop, List.length_cons]
          simp only [List.length_cons] at hlen
          omega
        exact ih _ hd fun x hx hmem =>
          hs x hx (List.drop_subset _ _ hmem)
      · rw [repl_cons_neg r h]
        have hnr : ¬(r ≠ [] ∧ r <+: (c :: repl t r cs)) := by
          obtain ⟨rc, r', rfl⟩ := exists_cons_of_ne_nil hr
          rintro ⟨-, hp⟩
          rw [List.cons_prefix_cons] at hp
          exact hs rc (List.mem_cons_self _ _) (hp.1 ▸ List.mem_cons_self _ _)
        rw [countOccur_cons_neg hnr, countOccur_cons_neg h]
        exact ih cs (by simp only [List.length_cons] at hlen; omega)
          fun x hx hmem => hs x hx (List.mem_cons_of_mem _ hmem)

theorem countOccur_repl_replacement (t r s : List α) (ht : t ≠ []) (hr : r ≠ [])
    (hs : ∀ c ∈ r, c ∉ s) : countOccur r (repl t r s) = countOccur t s :=
  countOccur_repl_replacement_aux t r ht hr s.length s le_rfl hs

theorem update_file_nil (t r : List Char) : update_file t r [] = [] := rfl

theorem update_file_cons (t r : List Char) (l : List Char) (ls : List (List Char)) :
    update_file t r (l :: ls) = repl t r l :: update_file t r ls := rfl

theorem countFile_nil (t : List Char) : countFile t [] = 0 := rfl

theorem countFile_cons (t : List Char) (l : List Char) (ls : List (List Char)) :
    countFile t (l :: ls) = countOccur t l + countFile t ls := by
  simp [countFile]

/-- With `target = replacement`, `update_file` leaves the file unchanged. -/
theorem update_file_self (t : List Char) (lines : List (List Char)) :
    update_file t t lines = lines := by
  induction lines with
  | nil => rfl
  | cons l ls ih => rw [update_file_cons, repl_self, ih]

end TheoryLemmas
/-! Helper lemmas about the program model. -/

section ModelLemmas

theorem map_id_of_eq {β : Type} {l : List β} {f : β → β} (h : ∀ x ∈ l, f x = x) :
    l.map f = l := by
  induction l with
  | nil => rfl
  | cons x xs ih =>
    simp only [List.map_cons]
    rw [h x (List.mem_cons_self _ _), ih fun y hy => h y (List.mem_cons_of_mem _ hy)]

/-- With `target = replacement` the mutation step leaves the workspace
byte-for-byte unchanged. -/
theorem mutatedFiles_self (cfg : Config) (env : RepoEnv)
    (heq : cfg.target = cfg.replacement) (fps : List String) :
    mutatedFiles cfg env fps = env.files := by
  unfold mutatedFiles
  apply map_id_of_eq
  intro f _
  by_cases hmem : f.1 ∈ fps
  · rw [if_pos hmem, ← heq, update_file_self]
  · rw [if_neg hmem]

/-- The error raised by each configuration check of `validate`, as one
existence statement. -/
theorem validate_error_of_bad (cfg : Config)
    (h : (cfg.repoList ≠ [] ∧ (cfg.repoRegex ≠ "" ∨ cfg.repoTopic ≠ "")) ∨
         (cfg.repoList = [] ∧ cfg.repoRegex = "" ∧ cfg.repoTopic = "") ∨
         cfg.branchName = "master" ∨ cfg.branchName = "main") :
    ∃ e, validate cfg = Except.error e := by
  unfold validate
  by_cases h1 : cfg.repoRegex = "" ∧ cfg.repoTopic = "" ∧ cfg.repoList = []
  · rw [if_pos h1]
    exact ⟨_, rfl⟩
  · rw [if_neg h1]
    by_cases h2 : cfg.repoList ≠ [] ∧ (cfg.repoRegex ≠ "" ∨ cfg.repoTopic ≠ "")
    · rw [if_pos h2]
      exact ⟨_, rfl⟩
    · rw [if_neg h2]
      have h3 : cfg.branchName = "master" ∨ cfg.branchName = "main" := by
        rcases h with hboth | ⟨hl, hr, ht⟩ | hm | hm
        · exact absurd hboth h2
        · exact absurd ⟨hr, ht, hl⟩ h1
        · exact Or.inl hm
        · exact Or.inr hm
      rw [if_pos h3]
      exact ⟨_, rfl⟩

/-- A configuration `ValueError` makes `main` raise before any network or
filesystem action. -/
theorem main_configError_of_validate (cfg : Config) (world : List RepoEnv)
    (e : ConfigError) (he : validate cfg = Except.error e) :
    main cfg world = MainOutcome.configError e := by
  unfold main
  rw [he]

end ModelLemmas

/-! The claims. -/

section Claims

/-- C1, counterexample.  The claim says a per-repository fatal error is
caught at the orchestrator boundary and the remaining repositories are
still processed.  In the code the loop of `main` (lines 142-148) has no
`try`/`except`: with repositories `a` (whose clone fails) and `b`
(healthy), the run ends with the uncaught clone error, having performed
only `a`'s two actions — repository `b` is never even fetched. -/
theorem claim_C1_counterexample :
    main cfgC1 [envC1a, envC1b] =
      MainOutcome.run [Action.getRepo "o/a", Action.clone "u" "w/a"]
        (Except.error Err.cloneError) ∧
    Action.getRepo "o/b" ∉ [Action.getRepo "o/a", Action.clone "u" "w/a"] := by
  decide

/-- C1, amended.  A per-repository fatal error is not caught at the
orchestrator boundary: the first repository whose `update_repo` raises
ends the whole loop with that error, and the remaining repositories in
the list are not processed at all (the loop's trace and result are
exactly those of the failing repository). -/
theorem claim_C1_amended (cfg : Config) (world : List RepoEnv) (n : String)
    (rest : List String) (env : RepoEnv) (tr : List Action) (e : Err)
    (hfind : world.find? (fun x => x.name == n) = some env)
    (hfail : update_repo cfg env = (tr, Except.error e)) :
    runRepoNames cfg world (n :: rest) = (tr, Except.error e) := by
  simp only [runRepoNames, hfind, hfail]

/-- Witness for C1: the amended theorem applied to the concrete world of
the counterexample. -/
theorem claim_C1_amended_witness :
    ([envC1a, envC1b].find? (fun x => x.name == "a") = some envC1a) ∧
    (update_repo cfgC1 envC1a =
      ([Action.getRepo "o/a", Action.clone "u" "w/a"], Except.error Err.cloneError)) ∧
    runRepoNames cfgC1 [envC1a, envC1b] ["a", "b"] =
      ([Action.getRepo "o/a", Action.clone "u" "w/a"], Except.error Err.cloneError) :=
  ⟨by decide, by decide,
    claim_C1_amended cfgC1 [envC1a, envC1b] "a" ["b"] envC1a
      [Action.getRepo "o/a", Action.clone "u" "w/a"] Err.cloneError
      (by decide) (by decide)⟩

/-- C2, counterexample.  The claim says an archived repository yields
`SkippedArchived` with no clone, no branch, no commit, and never reaches
pull-request publishing.  `update_repo` (lines 61-73) never consults the
`archived` flag: the archived repository `envC2` is cloned, a topic
branch is created and checked out, a commit is made, and a pull request
is opened. -/
theorem claim_C2_counterexample :
    envC2.archived = true ∧
    update_repo cfgC2 envC2 =
      ([Action.getRepo "o/a", Action.clone "u" "w/a", Action.search ['x'],
        Action.updateFileAt "f", Action.createHead "t", Action.checkoutBranch "t",
        Action.commit "m", Action.push, Action.sleep 1,
        Action.createPull "m" "" "t" "d"],
       Except.ok (some ["purl"])) := by
  decide

/-- C2, amended.  The `archived` flag is never consulted: `update_repo`
behaves identically on a repository whatever the value of the flag, so an
archived repository is cloned, branched, committed and published exactly
like a non-archived one, and no `SkippedArchived` outcome exists. -/
theorem claim_C2_amended (cfg : Config) (env : RepoEnv) (b : Bool) :
    update_repo cfg { env with archived := b } = update_repo cfg env := by
  cases env
  rfl

/-- C3, counterexample.  The claim says a topic branch equal to the
repository's default branch is rejected before any network call.
`cfgC3`'s topic branch `develop` equals the repository's default branch,
is accepted by `validate` (lines 130-131 test only `master` and `main`),
and the run proceeds to the network: the repository is fetched. -/
theorem claim_C3_counterexample :
    cfgC3.branchName = envC3.defaultBranch ∧
    validate cfgC3 = Except.ok () ∧
    main cfgC3 [envC3] =
      MainOutcome.run [Action.getRepo "o/a", Action.checkout "develop"]
        (Except.error Err.syncError) := by
  decide

/-- C3, amended.  Validation rejects exactly the topic branch names
`master` and `main`, with a configuration error raised before any network
call; equality with the repository's default branch alone is not checked
and does not cause rejection. -/
theorem claim_C3_amended (cfg : Config) (world : List RepoEnv)
    (h : cfg.branchName = "master" ∨ cfg.branchName = "main") :
    ∃ e, main cfg world = MainOutcome.configError e := by
  obtain ⟨e, he⟩ := validate_error_of_bad cfg (Or.inr (Or.inr h))
  exact ⟨e, main_configError_of_validate cfg world e he⟩

/-- Witness for C3: a protected branch name is rejected on a concrete
configuration. -/
theorem claim_C3_amended_witness :
    (cfgC3m.branchName = "master" ∨ cfgC3m.branchName = "main") ∧
    ∃ e, main cfgC3m [envC3] = MainOutcome.configError e :=
  ⟨Or.inl (by decide), claim_C3_amended cfgC3m [envC3] (Or.inl (by decide))⟩

/-- C4, counterexample.  The claim says no repository name appears twice
in a rule-based selection, even when the name matches the substring rule
and the topic set contains the topic rule.  The selection loop
(lines 33-39) appends the name once per matching rule: `svc-tool`, which
matches the substring rule `svc` and carries the topic `tool`, is
returned twice. -/
theorem claim_C4_counterexample :
    get_repo_names [] "svc" "tool" [] [envC4] = ["svc-tool", "svc-tool"] ∧
    ¬ (get_repo_names [] "svc" "tool" [] [envC4]).Nodup := by
  decide

/-- C4, amended.  A rule-based selection preserves the organization's
discovery order (it is a sublist of the enumerated names), and no name
appears twice provided no repository matches the substring rule and the
topic rule simultaneously; a repository matching both rules appears
twice. -/
theorem claim_C4_amended (repoRegex repoTopic : String) (ignoreRepos : List String)
    (repos : List RepoEnv)
    (hnames : (repos.map RepoEnv.name).Nodup)
    (hnotboth : ∀ e ∈ repos, ¬((repoRegex ≠ "" ∧ strContains e.name repoRegex) ∧
        (repoTopic ≠ "" ∧ repoTopic ∈ e.topics))) :
    (selectRepos repoRegex repoTopic ignoreRepos repos).Nodup ∧
    List.Sublist (selectRepos repoRegex repoTopic ignoreRepos repos)
      (repos.map RepoEnv.name) := by
  induction repos with
  | nil => exact ⟨List.nodup_nil, List.nil_sublist _⟩
  | cons e es ih =>
    rw [List.map_cons, List.nodup_cons] at hnames
    obtain ⟨hnotin, hnames2⟩ := hnames
    obtain ⟨ihn, ihs⟩ := ih hnames2 fun x hx => hnotboth x (List.mem_cons_of_mem _ hx)
    rw [List.map_cons]
    by_cases hig : e.name ∈ ignoreRepos
    · rw [selectRepos, if_pos hig]
      exact ⟨ihn, ihs.trans (List.sublist_cons_self _ _)⟩
    · rw [selectRepos, if_neg hig]
      by_cases h1 : repoRegex ≠ "" ∧ strContains e.name repoRegex
      · have h2 : ¬(repoTopic ≠ "" ∧ repoTopic ∈ e.topics) := fun h2 =>
          hnotboth e (List.mem_cons_self _ _) ⟨h1, h2⟩
        rw [if_pos h1, if_neg h2]
        simp only [List.nil_append, List.singleton_append]
        exact ⟨List.nodup_cons.mpr ⟨fun hmem => hnotin (ihs.subset hmem), ihn⟩,
          ihs.cons₂ _⟩
      · rw [if_neg h1]
        by_cases h2 : repoTopic ≠ "" ∧ repoTopic ∈ e.topics
        · rw [if_pos h2]
          simp only [List.nil_append, List.singleton_append]
          exact ⟨List.nodup_cons.mpr ⟨fun hmem => hnotin (ihs.subset hmem), ihn⟩,
            ihs.cons₂ _⟩
        · rw [if_neg h2]
          simp only [List.nil_append]
          exact ⟨ihn, ihs.cons _⟩

/-- Witness for C4: two repositories, one matching only the substring
rule and one only the topic rule, give a duplicate-free, order-preserving
selection. -/
theorem claim_C4_amended_witness :
    ([envC4a, envC4b].map RepoEnv.name).Nodup ∧
    (∀ e ∈ [envC4a, envC4b], ¬(("al" ≠ "" ∧ strContains e.name "al") ∧
        ("tool" ≠ "" ∧ "tool" ∈ e.topics))) ∧
    ((selectRepos "al" "tool" [] [envC4a, envC4b]).Nodup ∧
      List.Sublist (selectRepos "al" "tool" [] [envC4a, envC4b])
        ([envC4a, envC4b].map RepoEnv.name)) :=
  ⟨by decide, by decide,
    claim_C4_amended "al" "tool" [] [envC4a, envC4b] (by decide) (by decide)⟩

/-- C5, counterexample.  The claim says that for a non-empty target that
is not a substring of the replacement and does not span a line boundary,
a file containing the target `n` times contains the replacement exactly
`n` times after mutation.  Take target `a`, replacement `b` (the target
is not a substring of the replacement) and the one-line file `ab`: the
target occurs once, but after mutation the file is `bb`, which contains
the replacement twice, not once. -/
theorem claim_C5_counterexample :
    (['a'] : List Char) ≠ [] ∧
    ¬ (['a'] : List Char) <:+: ['b'] ∧
    countFile ['a'] [['a', 'b']] = 1 ∧
    update_file ['a'] ['b'] [['a', 'b']] = [['b', 'b']] ∧
    countFile ['b'] (update_file ['a'] ['b'] [['a', 'b']]) = 2 := by
  decide

/-- C5, amended.  For every file, every non-empty target string that does
not span a line boundary, and every non-empty replacement string none of
whose characters occurs anywhere in the file, mutating the file replaces
every occurrence of the target with the replacement: if the file
contained the target `n` times, afterwards it contains the target `0`
times and the replacement exactly `n` times.  (The original side
condition "target is not a substring of the replacement" is not enough:
a replacement already present in the file, or adjacent to remaining text
that recreates the target, breaks both counts.) -/
theorem claim_C5_amended (t r : List Char) (file : List (List Char))
    (ht : t ≠ []) (hr : r ≠ [])
    (hfresh : ∀ c ∈ r, ∀ line ∈ file, c ∉ line) :
    countFile t (update_file t r file) = 0 ∧
    countFile r (update_file t r file) = countFile t file := by
  induction file with
  | nil => exact ⟨rfl, rfl⟩
  | cons l ls ih =>
    obtain ⟨ih1, ih2⟩ := ih fun c hc line hline =>
      hfresh c hc line (List.mem_cons_of_mem _ hline)
    have hline : ∀ c ∈ r, c ∉ l := fun c hc => hfresh c hc l (List.mem_cons_self _ _)
    rw [update_file_cons, countFile_cons, countFile_cons, countFile_cons]
    constructor
    · rw [countOccur_repl_target t r l ht hr hline, ih1]
    · rw [countOccur_repl_replacement t r l ht hr hline, ih2]

/-- Witness for C5: target `a`, replacement `b`, file `aca` / `c`; the
replacement's character occurs nowhere in the file, the target occurs
twice, and after mutation the target is gone and the replacement occurs
twice. -/
theorem claim_C5_amended_witness :
    (['a'] : List Char) ≠ [] ∧ (['b'] : List Char) ≠ [] ∧
    (∀ c ∈ (['b'] : List Char), ∀ line ∈ [['a', 'c', 'a'], ['c']], c ∉ line) ∧
    (countFile ['a'] (update_file ['a'] ['b'] [['a', 'c', 'a'], ['c']]) = 0 ∧
      countFile ['b'] (update_file ['a'] ['b'] [['a', 'c', 'a'], ['c']]) =
        countFile ['a'] [['a', 'c', 'a'], ['c']]) :=
  ⟨by decide, by decide, by decide,
    claim_C5_amended ['a'] ['b'] [['a', 'c', 'a'], ['c']]
      (by decide) (by decide) (by decide)⟩

/-- C6, confirmed.  Supplying both an explicit repository list and a rule
(substring and/or topic), or supplying neither, makes `main` raise a
configuration `ValueError` (lines 124-128) before any network or
filesystem action (the `MainOutcome.configError` outcome carries no
trace: nothing was executed). -/
theorem claim_C6 (cfg : Config) (world : List RepoEnv)
    (h : (cfg.repoList ≠ [] ∧ (cfg.repoRegex ≠ "" ∨ cfg.repoTopic ≠ "")) ∨
         (cfg.repoList = [] ∧ cfg.repoRegex = "" ∧ cfg.repoTopic = "")) :
    ∃ e, main cfg world = MainOutcome.configError e := by
  obtain ⟨e, he⟩ := validate_error_of_bad cfg
    (by rcases h with h | h; exacts [Or.inl h, Or.inr (Or.inl h)])
  exact ⟨e, main_configError_of_validate cfg world e he⟩

/-- Witness for C6: a configuration with both an explicit list and a
substring rule is rejected. -/
theorem claim_C6_witness :
    ((cfgC6.repoList ≠ [] ∧ (cfgC6.repoRegex ≠ "" ∨ cfgC6.repoTopic ≠ "")) ∨
      (cfgC6.repoList = [] ∧ cfgC6.repoRegex = "" ∧ cfgC6.repoTopic = "")) ∧
    ∃ e, main cfgC6 [] = MainOutcome.configError e :=
  ⟨by decide, claim_C6 cfgC6 [] (by decide)⟩

/-- C9, confirmed.  With an explicit repository list, `get_repo_names`
(lines 26-27) returns the list unchanged before the ignore filter is ever
consulted: every listed name is processed, including names that also
appear in the ignore list; ignore filtering only happens in the
rule-based loop. -/
theorem claim_C9 (repoList : List String) (repoRegex repoTopic : String)
    (ignoreRepos : List String) (allRepos : List RepoEnv)
    (h : repoList ≠ []) :
    get_repo_names repoList repoRegex repoTopic ignoreRepos allRepos = repoList := by
  unfold get_repo_names
  rw [if_pos h]

/-- Witness for C9: the explicitly listed name `a` is returned even
though it is in the ignore list. -/
theorem claim_C9_witness :
    (["a"] : List String) ≠ [] ∧
    get_repo_names ["a"] "" "" ["a"] [] = ["a"] :=
  ⟨by decide, claim_C9 ["a"] "" "" ["a"] [] (by decide)⟩

end Claims

section ClaimsTwo

/-- C7, confirmed.  When publishing was requested and a commit exists
(the mutation changed the working tree and the commit call succeeded),
the publisher pushes the topic branch, sleeps the fixed one-second
backoff, then opens a pull request whose title is the commit message,
whose body is empty, whose head is the topic branch, and whose base is
the repository's resolved default branch (this configuration surface has
no explicit base override, so the resolved default branch is always
used), and the repository's result is the created pull request's URL. -/
theorem claim_C7 (cfg : Config) (env : RepoEnv)
    (hpr : cfg.pr = true)
    (hws : env.workspaceExists = true)
    (hsync : env.syncFails = false)
    (htf : cfg.targetFile = "")
    (hfound : get_file_paths env.files cfg.target ≠ [])
    (hchanged : mutatedFiles cfg env (get_file_paths env.files cfg.target) ≠ env.files)
    (hcommit : env.commitExtraFails = false)
    (hpush : env.pushFails = false)
    (hcpull : env.createPullFails = false) :
    update_repo cfg env =
      ([Action.getRepo (cfg.orgName ++ "/" ++ env.name),
        Action.checkout env.defaultBranch, Action.resetHard env.defaultBranch,
        Action.pull env.defaultBranch, Action.search cfg.target]
        ++ (get_file_paths env.files cfg.target).map Action.updateFileAt
        ++ [Action.createHead cfg.branchName, Action.checkoutBranch cfg.branchName,
            Action.commit cfg.commitMessage, Action.push, Action.sleep 1,
            Action.createPull cfg.commitMessage "" cfg.branchName env.defaultBranch],
       Except.ok (some [env.prUrl])) := by
  simp only [update_repo, update_repo_afterSync, update_repo_withPaths, create_pr,
    hpr, hws, hsync, htf, hfound, hchanged, hcommit, hpush, hcpull,
    ne_eq, not_true_eq_false, not_false_eq_true, Bool.false_eq_true, ite_true,
    ite_false, if_true, if_false, or_false, false_or, or_self,
    List.cons_append, List.nil_append, List.append_assoc, List.singleton_append]

/-- Witness for C7: the full publish path on a concrete healthy
repository. -/
theorem claim_C7_witness :
    (cfgC7.pr = true ∧ envC7.workspaceExists = true ∧ envC7.syncFails = false ∧
     cfgC7.targetFile = "" ∧ get_file_paths envC7.files cfgC7.target ≠ [] ∧
     mutatedFiles cfgC7 envC7 (get_file_paths envC7.files cfgC7.target) ≠ envC7.files ∧
     envC7.commitExtraFails = false ∧ envC7.pushFails = false ∧
     envC7.createPullFails = false) ∧
    update_repo cfgC7 envC7 =
      ([Action.getRepo (cfgC7.orgName ++ "/" ++ envC7.name),
        Action.checkout envC7.defaultBranch, Action.resetHard envC7.defaultBranch,
        Action.pull envC7.defaultBranch, Action.search cfgC7.target]
        ++ (get_file_paths envC7.files cfgC7.target).map Action.updateFileAt
        ++ [Action.createHead cfgC7.branchName, Action.checkoutBranch cfgC7.branchName,
            Action.commit cfgC7.commitMessage, Action.push, Action.sleep 1,
            Action.createPull cfgC7.commitMessage "" cfgC7.branchName
              envC7.defaultBranch],
       Except.ok (some [envC7.prUrl])) :=
  ⟨⟨by decide, by decide, by decide, by decide, by decide, by decide, by decide,
    by decide, by decide⟩,
   claim_C7 cfgC7 envC7 (by decide) (by decide) (by decide) (by decide) (by decide)
     (by decide) (by decide) (by decide) (by decide)⟩

/-- C8, confirmed.  When the target string equals the replacement string,
the substitution leaves every file unchanged (`repl t t = id`), so the
commit has nothing to commit, git raises, the script catches the error
and returns `None`: no repository can end with a `Committed` (or
published) result — `update_repo` never returns a `some` value. -/
theorem claim_C8 (cfg : Config) (env : RepoEnv)
    (heq : cfg.target = cfg.replacement) (res : List String) :
    (update_repo cfg env).2 ≠ Except.ok (some res) := by
  have hwp : ∀ (trace : List Action) (fps : List String),
      (update_repo_withPaths cfg env trace fps).2 = Except.ok none := by
    intro trace fps
    simp only [update_repo_withPaths]
    rw [if_pos (Or.inl (mutatedFiles_self cfg env heq fps))]
  have has : ∀ trace : List Action,
      (update_repo_afterSync cfg env trace).2 ≠ Except.ok (some res) := by
    intro trace
    simp only [update_repo_afterSync]
    by_cases htf : cfg.targetFile ≠ ""
    · rw [if_pos htf, hwp]
      simp
    · rw [if_neg htf]
      by_cases hfp : get_file_paths env.files cfg.target = []
      · rw [if_pos hfp]
        simp
      · rw [if_neg hfp, hwp]
        simp
  unfold update_repo
  by_cases hws : env.workspaceExists = true
  · rw [if_pos hws]
    by_cases hsf : env.syncFails = true
    · rw [if_pos hsf]
      simp
    · rw [if_neg hsf]
      exact has _
  · rw [if_neg hws]
    by_cases hcf : env.cloneFails = true
    · rw [if_pos hcf]
      simp
    · rw [if_neg hcf]
      exact has _

/-- Witness for C8: with `target = replacement = "x"` on a repository
whose file contains `x`, the result is not the `Committed`-style value
`some ["a/f"]` a successful commit would have produced. -/
theorem claim_C8_witness :
    cfgC8.target = cfgC8.replacement ∧
    (update_repo cfgC8 envC8).2 ≠ Except.ok (some ["a/f"]) :=
  ⟨by decide, claim_C8 cfgC8 envC8 (by decide) ["a/f"]⟩

/-- C10, confirmed.  The commit call sits in a `try`/`except` catching
every `GitCommandError` (lines 93-97), not just the "nothing to commit"
case: a repository whose commit raises for an unrelated reason
(`commitExtraFails`) is still reported with the same no-matches message
and a `None` result, and the run sees no error from it. -/
theorem claim_C10 (cfg : Config) (env : RepoEnv)
    (hws : env.workspaceExists = true)
    (hsync : env.syncFails = false)
    (htf : cfg.targetFile = "")
    (hfound : get_file_paths env.files cfg.target ≠ [])
    (hfail : env.commitExtraFails = true) :
    (update_repo cfg env).2 = Except.ok none ∧
    Action.printNoMatches env.name ∈ (update_repo cfg env).1 := by
  constructor <;>
    simp [update_repo, update_repo_afterSync, update_repo_withPaths,
      hws, hsync, htf, hfound, hfail]

/-- Witness for C10: a concrete repository whose commit call fails even
though the mutation changed the working tree. -/
theorem claim_C10_witness :
    (envC10.workspaceExists = true ∧ envC10.syncFails = false ∧
     cfgC10.targetFile = "" ∧ get_file_paths envC10.files cfgC10.target ≠ [] ∧
     envC10.commitExtraFails = true) ∧
    ((update_repo cfgC10 envC10).2 = Except.ok none ∧
     Action.printNoMatches envC10.name ∈ (update_repo cfgC10 envC10).1) :=
  ⟨⟨by decide, by decide, by decide, by decide, by decide⟩,
   claim_C10 cfgC10 envC10 (by decide) (by decide) (by decide) (by decide)
     (by decide)⟩

end ClaimsTwo

end UpdateRepos
